import Mathlib

/-!
# Verification of the sparse_distributed_cryptor repository

Shallow embedding of the Python sources (`compression_test.py`,
`sdmTest.py`, `sparse_malicious_memory.py`) and proofs of the frozen
claims about them.

Conventions of the embedding:
* Python lists of bits / counters become `List Nat` / `List Int`.
* Python exceptions (`raise ValueError`) become `Except CodecError`.
* Python's global Mersenne-Twister stream (`random.seed(s)` followed by
  repeated `random.randint(0, 1)`) is abstracted as a function
  `rng : Nat → Nat → Nat` mapping (seed, draw index) to the drawn bit;
  both call sites in the source consume such a stream identically, which
  is all the claims about key/address coincidence need.
* The float literal `0.451` of the source is modelled as the exact
  rational `451/1000`; for the integer comparisons the code performs
  (`hdist <= radius` with integer `hdist`) the two agree for every
  `n < 8·10^13`, far beyond any representable memory.
-/

/-- Error conditions of the bundle codec, named after the spec's error
table (`MalformedEncoding` split into its two trigger conditions). -/
inductive CodecError where
  | MalformedOdd
  | MalformedValue
  | CounterOverflow
  | ByteRange
deriving DecidableEq, Repr

/-- `hamming_distance` from `compression_test.py` lines 4-6:
`sum(x != y for x, y in zip(a, b))`.  Note that `zip` silently truncates
to the shorter of the two lists. -/
def hamming_distance (a b : List Nat) : Nat :=
  ((a.zip b).filter (fun p => decide (p.1 ≠ p.2))).length

/-- SDM state of `compression_test.py` (class `SDM`): the address list
`keys`, the counter matrix `data` and the Hamming `radius`.  The
constructor (line 29-35) fills `keys` from the seeded PRNG, zeroes
`data` and sets `radius = int(0.451 * n)`; the methods below only ever
consult these three fields. -/
structure SDM where
  keys : List (List Nat)
  data : List (List Int)
  radius : Nat

/-- Inner loop of `SDM.enter` (lines 42-46): for `j` in
`range(len(data_vector))`, add 1 to `row[j]` when `data_vector[j] == 1`,
else subtract 1.  Positions of `row` beyond the pattern are untouched.
(A pattern longer than the row would raise `IndexError` in Python; the
claims only use patterns no longer than the row.) -/
def voteUpdate : List Int → List Nat → List Int
  | row, [] => row
  | [], _ => []
  | r :: row, p :: pat => (if p = 1 then r + 1 else r - 1) :: voteUpdate row pat

/-- `SDM.enter` from `compression_test.py` lines 37-46: every address row
within `radius` of the key gets the ±1 vote update. -/
def SDM.enter (s : SDM) (key_vector data_vector : List Nat) : SDM :=
  { s with
    data := (s.keys.zip s.data).map
      (fun kd => if hamming_distance kd.1 key_vector ≤ s.radius
                 then voteUpdate kd.2 data_vector else kd.2) }

/-- `SDM.lookup` from `compression_test.py` lines 48-56: accumulate the
counter rows of all addresses within `radius` of the key into a vector
of `len(key_vector)` zeros, then threshold with `1 if x > 0 else 0`.
(`List.zipWith (+)` matches the Python loop `for j in
range(len(key_vector)): retrieved[j] += data[i][j]` whenever a selected
row is at least as long as the key, the only situation the source can
reach without an `IndexError`.) -/
def SDM.lookup (s : SDM) (key_vector : List Nat) : List Nat :=
  (((s.keys.zip s.data).foldl
      (fun acc kd => if hamming_distance kd.1 key_vector ≤ s.radius
                     then List.zipWith (· + ·) acc kd.2 else acc)
      (List.replicate key_vector.length (0 : Int))).map
    (fun x => if x > 0 then 1 else 0))

/-- Sum, at bit position `j`, of the counters of all rows whose address
is within the radius of the key: the "accumulated sum of in-radius
counters" the spec's threshold rule speaks about. -/
def inRadiusSum (s : SDM) (key : List Nat) (j : Nat) : Int :=
  (((s.keys.zip s.data).filter
      (fun kd => decide (hamming_distance kd.1 key ≤ s.radius))).map
    (fun kd => kd.2.getD j 0)).sum

/-- `chunk_binary_data` from `compression_test.py` lines 58-69: full
`chunk_size` windows, then (when `len % chunk_size > 0`) one extra chunk
made of the last `remainder` elements (`binary_data[-remainder:]`)
right-padded with zeros. -/
def chunk_binary_data (binary_data : List Nat) (chunk_size : Nat) : List (List Nat) :=
  let chunks := (List.range (binary_data.length / chunk_size)).map
    (fun i => (binary_data.drop (i * chunk_size)).take chunk_size)
  let remainder := binary_data.length % chunk_size
  if remainder > 0 then
    chunks ++ [binary_data.drop (binary_data.length - remainder) ++
               List.replicate (chunk_size - remainder) 0]
  else chunks

/-- The vector block drawn by Python's seeded PRNG: `random.seed(seed)`
followed by the row-major comprehension
`[[random.randint(0, 1) for _ in range(n)] for _ in range(count)]`.
The `i`-th vector's `j`-th bit is draw number `i*n + j` of the stream
seeded with `seed`, abstracted as `rng seed (i*n + j)`. -/
def pyRandVectors (rng : Nat → Nat → Nat) (seed count n : Nat) : List (List Nat) :=
  (List.range count).map (fun i => (List.range n).map (fun j => rng seed (i * n + j)))

/-- The address list built by `SDM.__init__` (`compression_test.py`
lines 32-33) with the default seed 42. -/
def sdm_init_keys (rng : Nat → Nat → Nat) (p n : Nat) : List (List Nat) :=
  pyRandVectors rng 42 p n

/-- `generate_key_vectors` from `compression_test.py` lines 71-74 with
the default seed 42: reseeds the same generator and draws the same way. -/
def generate_key_vectors (rng : Nat → Nat → Nat) (num_keys n : Nat) : List (List Nat) :=
  pyRandVectors rng 42 num_keys n

/-- `run_length_encode_packed` loop state (`compression_test.py` lines
84-98): `current_val` and `count`, emitting `[count, current_val]` when
the run breaks or `count` would pass 255, and once more at the end. -/
def rle_go (current_val : Nat) (count : Nat) : List Nat → List Nat
  | [] => [count, current_val]
  | v :: rest =>
    if v = current_val then
      if count < 255 then rle_go current_val (count + 1) rest
      else count :: current_val :: rle_go current_val 1 rest
    else count :: current_val :: rle_go v 1 rest

/-- `run_length_encode_packed` from `compression_test.py` lines 76-99. -/
def run_length_encode_packed : List Nat → List Nat
  | [] => []
  | b :: rest => rle_go b 1 rest

/-- Pair loop of `run_length_decode_packed` (`compression_test.py` lines
109-113): take `(count, val)` pairs, reject `val` outside `{0,1}`,
otherwise emit `count` copies of `val`.  The singleton case cannot be
reached from `run_length_decode_packed`, which checks parity first. -/
def rle_decode_go : List Nat → Except CodecError (List Nat)
  | [] => .ok []
  | [_] => .error CodecError.MalformedOdd
  | count :: val :: rest =>
    if val ≤ 1 then
      (rle_decode_go rest).map (fun d => List.replicate count val ++ d)
    else .error CodecError.MalformedValue

/-- `run_length_decode_packed` from `compression_test.py` lines 101-114:
an odd-length input is rejected up front, then pairs are expanded. -/
def run_length_decode_packed (encoded : List Nat) : Except CodecError (List Nat) :=
  if encoded.length % 2 ≠ 0 then .error CodecError.MalformedOdd
  else rle_decode_go encoded

/-- The `(count, value)` pairs of a flat RLE sequence (a trailing
unmatched element is dropped; such inputs are rejected by the decoder
anyway). -/
def rle_pairs : List Nat → List (Nat × Nat)
  | count :: val :: rest => (count, val) :: rle_pairs rest
  | _ => []

/-- Single-counter step of the counter serialization in
`save_loader_file_no_dependencies` (`compression_test.py` lines
156-162): range check into a signed byte, then two's-complement offset
for negative values. -/
def encodeCounter (val : Int) : Except CodecError Nat :=
  if val < -128 ∨ val > 127 then .error CodecError.CounterOverflow
  else if val < 0 then .ok (val + 256).toNat
  else .ok val.toNat

/-- Flattened-order counter loop of lines 154-162. -/
def serialize_counters_go : List Int → Except CodecError (List Nat)
  | [] => .ok []
  | v :: rest =>
    match encodeCounter v with
    | .error e => .error e
    | .ok b => (serialize_counters_go rest).map (fun l => b :: l)

/-- The counter-matrix serialization of
`save_loader_file_no_dependencies` (`compression_test.py` lines
153-163): iterate the rows of `sdm.data` in order, flattening, checking
and offsetting each counter. -/
def serialize_counters (data : List (List Int)) : Except CodecError (List Nat) :=
  serialize_counters_go data.flatten

/-- The key serialization and byte-range validation of
`save_loader_file_no_dependencies` (`compression_test.py` lines
138-149): RLE-encode every key, flatten, and reject any element outside
`0..255` before converting to `bytes`. -/
def keys_to_bytes (keys : List (List Nat)) : Except CodecError (List Nat) :=
  let keys_flat := (keys.map run_length_encode_packed).flatten
  if keys_flat.all (fun b => decide (b ≤ 255)) then .ok keys_flat
  else .error CodecError.ByteRange

/-- SDM state of `sdmTest.py` (class `SDM`, lines 11-26): `addresses`,
float counter matrix `data` (integer-valued throughout, modelled as
`Int`), vector length `n`.  Unlike `compression_test.py` the radius is
stored as the *float* `0.451 * n`, not floored. -/
structure SDMT where
  addresses : List (List Nat)
  data : List (List Int)
  n : Nat

/-- The radius stored by `sdmTest.py` line 26 (`self.radius = 0.451 * n`)
and `sparse_malicious_memory.py` line 10: the unfloored product, a
rational in the embedding. -/
def sdmTest_radius (n : Nat) : ℚ := 451 / 1000 * n

/-- The radius stored by `compression_test.py` line 35
(`self.radius = int(0.451 * n)`): the truncated (= floored, the value is
nonnegative) product. -/
def radius_ct (n : Nat) : Nat := 451 * n / 1000

/-- `SDM.lookup` from `sdmTest.py` lines 53-85: accumulator of `n`
zeros, rows within the float radius added in, and the threshold
`1 if x >= 0 else 0` (lines 77-83) — note `>= 0`, not `> 0`. -/
def SDMT.lookup (s : SDMT) (addressVector : List Nat) : List Nat :=
  (((s.addresses.zip s.data).foldl
      (fun acc kd => if ((hamming_distance kd.1 addressVector : ℚ) ≤ sdmTest_radius s.n)
                     then List.zipWith (· + ·) acc kd.2 else acc)
      (List.replicate s.n (0 : Int))).map
    (fun x => if 0 ≤ x then 1 else 0))

/-! ## Run-length encoding: structural lemmas -/

theorem rle_go_length_even (rest : List Nat) :
    ∀ cur cnt, (rle_go cur cnt rest).length % 2 = 0 := by
  induction rest with
  | nil => intro cur cnt; simp [rle_go]
  | cons v rs ih =>
    intro cur cnt
    simp only [rle_go]
    by_cases h1 : v = cur
    · by_cases h2 : cnt < 255
      · simp [h1, h2, ih]
      · simp only [h1, h2, if_true, if_false, List.length_cons]
        have := ih cur 1
        omega
    · simp only [h1, if_false, List.length_cons]
      have := ih v 1
      omega

theorem rle_decode_go_rle_go (rest : List Nat) :
    ∀ cur cnt, cur ≤ 1 → (∀ v ∈ rest, v ≤ 1) →
    rle_decode_go (rle_go cur cnt rest) = .ok (List.replicate cnt cur ++ rest) := by
  induction rest with
  | nil =>
    intro cur cnt hcur _
    simp [rle_go, rle_decode_go, hcur, Except.map]
  | cons v rs ih =>
    intro cur cnt hcur hrest
    have hv : v ≤ 1 := hrest v (by simp)
    have hrs : ∀ x ∈ rs, x ≤ 1 := fun x hx => hrest x (by simp [hx])
    simp only [rle_go]
    by_cases h1 : v = cur
    · by_cases h2 : cnt < 255
      · rw [if_pos h1, if_pos h2, ih cur (cnt + 1) hcur hrs]
        subst h1
        rw [List.replicate_succ' cnt v]
        simp
      · rw [if_pos h1, if_neg h2]
        simp only [rle_decode_go, hcur, if_pos, ih cur 1 hcur hrs]
        subst h1
        simp [Except.map]
    · rw [if_neg h1]
      simp only [rle_decode_go, hcur, if_pos, ih v 1 hv hrs]
      simp [Except.map]

set_option maxRecDepth 8000 in
/-- C1: for every binary sequence, decoding the packed run-length
encoding recovers the sequence exactly; `[0,0,0,1,1]` encodes to
`[3,0,2,1]`, `[3,0,2,1]` decodes to `[0,0,0,1,1]`, and a run of 300
equal bits encodes as the pair `[255, v]` followed by `[45, v]`. -/
theorem C1_rle_roundtrip (bits : List Nat) (hbits : ∀ b ∈ bits, b ≤ 1) :
    run_length_decode_packed (run_length_encode_packed bits) = .ok bits ∧
    run_length_encode_packed [0, 0, 0, 1, 1] = [3, 0, 2, 1] ∧
    run_length_decode_packed [3, 0, 2, 1] = .ok [0, 0, 0, 1, 1] ∧
    (∀ v ≤ 1, run_length_encode_packed (List.replicate 300 v) = [255, v, 45, v]) := by
  refine ⟨?_, by decide, rfl, ?_⟩
  · cases bits with
    | nil => rfl
    | cons b rest =>
      have hb : b ≤ 1 := hbits b (by simp)
      have hrest : ∀ v ∈ rest, v ≤ 1 := fun v hv => hbits v (by simp [hv])
      show run_length_decode_packed (rle_go b 1 rest) = .ok (b :: rest)
      unfold run_length_decode_packed
      rw [if_neg (by simp [rle_go_length_even])]
      rw [rle_decode_go_rle_go rest b 1 hb hrest]
      simp
  · intro v hv
    interval_cases v
    · decide
    · decide

/-- Witness for C1 at the concrete binary sequence `[0,1,1,0,0,0]`. -/
theorem C1_rle_roundtrip_witness :
    run_length_decode_packed (run_length_encode_packed [0, 1, 1, 0, 0, 0]) =
      .ok [0, 1, 1, 0, 0, 0] :=
  (C1_rle_roundtrip [0, 1, 1, 0, 0, 0] (by decide)).1

/-! ## Run-length decoding: error conditions (C7) -/

theorem list_pair_induction {α : Type} {P : List α → Prop} (nil : P []) (single : ∀ a, P [a])
    (cons2 : ∀ a b l, P l → P (a :: b :: l)) : ∀ l, P l
  | [] => nil
  | [a] => single a
  | a :: b :: t => cons2 a b t (list_pair_induction nil single cons2 t)

theorem rle_decode_go_spec (e : List Nat) : e.length % 2 = 0 →
    ((∃ l, rle_decode_go e = .ok l) ↔ ∀ p ∈ rle_pairs e, p.2 ≤ 1) ∧
    ((∀ p ∈ rle_pairs e, p.2 ≤ 1) →
      rle_decode_go e = .ok ((rle_pairs e).flatMap (fun p => List.replicate p.1 p.2))) := by
  induction e using list_pair_induction with
  | nil => intro _; simp [rle_decode_go, rle_pairs]
  | single a => intro h; simp at h
  | cons2 c v t ih =>
    intro he
    have ht : t.length % 2 = 0 := by simp only [List.length_cons] at he; omega
    obtain ⟨ih1, ih2⟩ := ih ht
    by_cases hv : v ≤ 1
    · constructor
      · constructor
        · intro ⟨l, hl⟩
          simp only [rle_decode_go, if_pos hv] at hl
          intro p hp
          rcases List.mem_cons.mp (by simpa [rle_pairs] using hp) with h | h
          · simp [h, hv]
          · cases h' : rle_decode_go t with
            | error err => simp [h', Except.map] at hl
            | ok l' => exact ih1.mp ⟨l', h'⟩ p h
        · intro hall
          simp only [rle_decode_go, if_pos hv, ih2 (fun p hp => hall p (by simp [rle_pairs, hp]))]
          exact ⟨_, rfl⟩
      · intro hall
        simp only [rle_decode_go, if_pos hv, ih2 (fun p hp => hall p (by simp [rle_pairs, hp]))]
        simp [rle_pairs, Except.map]
    · constructor
      · constructor
        · intro ⟨l, hl⟩
          simp [rle_decode_go, hv, Except.map] at hl
        · intro hall
          exact absurd (hall (c, v) (by simp [rle_pairs])) hv
      · intro hall
        exact absurd (hall (c, v) (by simp [rle_pairs])) hv

/-- C7: `run_length_decode_packed` fails exactly when the flat input has
odd length or some value component exceeds 1; on a well-formed input it
returns each value repeated its count, pairs in order. -/
theorem C7_decode_error_iff (e : List Nat) :
    ((∃ l, run_length_decode_packed e = .ok l) ↔
      (e.length % 2 = 0 ∧ ∀ p ∈ rle_pairs e, p.2 ≤ 1)) ∧
    (e.length % 2 = 0 → (∀ p ∈ rle_pairs e, p.2 ≤ 1) →
      run_length_decode_packed e =
        .ok ((rle_pairs e).flatMap (fun p => List.replicate p.1 p.2))) := by
  unfold run_length_decode_packed
  by_cases he : e.length % 2 = 0
  · obtain ⟨h1, h2⟩ := rle_decode_go_spec e he
    simp only [he, ne_eq, not_true_eq_false, not_false_eq_true, if_neg, if_false]
    constructor
    · rw [h1]; simp [he]
    · intro _ hall; exact h2 hall
  · constructor
    · simp [he]
    · intro h; exact absurd h he

/-- Witness for C7 at the well-formed input `[2, 1, 3, 0]`. -/
theorem C7_decode_error_iff_witness :
    run_length_decode_packed [2, 1, 3, 0] =
      .ok ((rle_pairs [2, 1, 3, 0]).flatMap (fun p => List.replicate p.1 p.2)) :=
  (C7_decode_error_iff [2, 1, 3, 0]).2 (by decide) (by decide)

/-! ## Run-length encoding output range (C10) -/

theorem rle_go_pairs_bound (rest : List Nat) :
    ∀ cur cnt, cur ≤ 1 → 1 ≤ cnt → cnt ≤ 255 → (∀ v ∈ rest, v ≤ 1) →
    ∃ ps : List (Nat × Nat), rle_go cur cnt rest = ps.flatMap (fun p => [p.1, p.2]) ∧
      ∀ p ∈ ps, (1 ≤ p.1 ∧ p.1 ≤ 255) ∧ p.2 ≤ 1 := by
  induction rest with
  | nil =>
    intro cur cnt hcur h1 h255 _
    exact ⟨[(cnt, cur)], by simp [rle_go], by simp [h1, h255, hcur]⟩
  | cons v rs ih =>
    intro cur cnt hcur h1 h255 hrest
    have hv : v ≤ 1 := hrest v (by simp)
    have hrs : ∀ x ∈ rs, x ≤ 1 := fun x hx => hrest x (by simp [hx])
    by_cases heq : v = cur
    · by_cases hlt : cnt < 255
      · obtain ⟨ps, hps, hb⟩ := ih cur (cnt + 1) hcur (by omega) (by omega) hrs
        exact ⟨ps, by simp [rle_go, heq, hlt, hps], hb⟩
      · obtain ⟨ps, hps, hb⟩ := ih cur 1 hcur (by omega) (by omega) hrs
        refine ⟨(cnt, cur) :: ps, by simp [rle_go, heq, hlt, hps], ?_⟩
        intro p hp
        rcases List.mem_cons.mp hp with h | h
        · simp [h, h1, h255, hcur]
        · exact hb p h
    · obtain ⟨ps, hps, hb⟩ := ih v 1 hv (by omega) (by omega) hrs
      refine ⟨(cnt, cur) :: ps, by simp [rle_go, heq, hps], ?_⟩
      intro p hp
      rcases List.mem_cons.mp hp with h | h
      · simp [h, h1, h255, hcur]
      · exact hb p h

theorem rle_encode_pairs (k : List Nat) (hk : ∀ b ∈ k, b ≤ 1) :
    ∃ ps : List (Nat × Nat),
      run_length_encode_packed k = ps.flatMap (fun p => [p.1, p.2]) ∧
      ∀ p ∈ ps, (1 ≤ p.1 ∧ p.1 ≤ 255) ∧ p.2 ≤ 1 := by
  cases k with
  | nil => exact ⟨[], by simp [run_length_encode_packed], by simp⟩
  | cons b rest =>
    exact rle_go_pairs_bound rest b 1 (hk b (by simp)) (by omega) (by omega)
      (fun x hx => hk x (by simp [hx]))

theorem rle_encode_le_255 (k : List Nat) (hk : ∀ b ∈ k, b ≤ 1) :
    ∀ x ∈ run_length_encode_packed k, x ≤ 255 := by
  obtain ⟨ps, hps, hb⟩ := rle_encode_pairs k hk
  intro x hx
  rw [hps] at hx
  obtain ⟨p, hp, hxp⟩ := List.mem_flatMap.mp hx
  obtain ⟨⟨_, hc⟩, hv⟩ := hb p hp
  rcases List.mem_cons.mp hxp with h | h
  · omega
  · simp at h; omega

/-- C10: for binary key vectors every element of the packed RLE output
is a `(count, value)` pair with `1 ≤ count ≤ 255` and `value ∈ {0,1}`,
so every flattened element fits a byte and the byte-range error branch
of the bundle writer cannot trigger. -/
theorem C10_encoded_bytes_in_range (keys : List (List Nat))
    (hkeys : ∀ k ∈ keys, ∀ b ∈ k, b ≤ 1) :
    (∀ k ∈ keys, ∃ ps : List (Nat × Nat),
        run_length_encode_packed k = ps.flatMap (fun p => [p.1, p.2]) ∧
        ∀ p ∈ ps, (1 ≤ p.1 ∧ p.1 ≤ 255) ∧ p.2 ≤ 1) ∧
    (∀ k ∈ keys, ∀ x ∈ run_length_encode_packed k, x ≤ 255) ∧
    keys_to_bytes keys = .ok ((keys.map run_length_encode_packed).flatten) := by
  refine ⟨fun k hk => rle_encode_pairs k (hkeys k hk),
          fun k hk => rle_encode_le_255 k (hkeys k hk), ?_⟩
  unfold keys_to_bytes
  rw [if_pos]
  rw [List.all_eq_true]
  intro x hx
  obtain ⟨L, hL, hxL⟩ := List.mem_flatten.mp hx
  obtain ⟨k, hk, rfl⟩ := List.mem_map.mp hL
  exact decide_eq_true (rle_encode_le_255 k (hkeys k hk) x hxL)

/-- Witness for C10 at the concrete binary keys `[[0,0,1],[1,1]]`. -/
theorem C10_encoded_bytes_in_range_witness :
    keys_to_bytes [[0, 0, 1], [1, 1]] =
      .ok (([[0, 0, 1], [1, 1]].map run_length_encode_packed).flatten) :=
  (C10_encoded_bytes_in_range [[0, 0, 1], [1, 1]] (by decide)).2.2

/-! ## Counter-matrix serialization (C3) -/

theorem serialize_counters_go_ok (l : List Int) (h : ∀ v ∈ l, -128 ≤ v ∧ v ≤ 127) :
    serialize_counters_go l =
      .ok (l.map (fun v => if v < 0 then (v + 256).toNat else v.toNat)) := by
  induction l with
  | nil => rfl
  | cons v rest ih =>
    have hv := h v (by simp)
    have hr : ∀ x ∈ rest, -128 ≤ x ∧ x ≤ 127 := fun x hx => h x (by simp [hx])
    have hrange : ¬(v < -128 ∨ v > 127) := by omega
    by_cases hv0 : v < 0 <;>
      simp [serialize_counters_go, encodeCounter, hrange, hv0, ih hr, Except.map]

theorem serialize_counters_go_err (l : List Int) (h : ∃ v ∈ l, v < -128 ∨ 127 < v) :
    serialize_counters_go l = .error CodecError.CounterOverflow := by
  induction l with
  | nil => simp at h
  | cons v rest ih =>
    by_cases hv : v < -128 ∨ v > 127
    · simp [serialize_counters_go, encodeCounter, hv]
    · obtain ⟨w, hw, hwr⟩ := h
      rcases List.mem_cons.mp hw with rfl | hw'
      · omega
      · have htail := ih ⟨w, hw', hwr⟩
        by_cases hv0 : v < 0 <;>
          simp [serialize_counters_go, encodeCounter, hv, hv0, htail, Except.map]

/-- C3: serializing the counter matrix fails with `CounterOverflow`
exactly when some counter lies outside `[-128, 127]`; otherwise every
negative counter is offset by 256 (two's complement) and non-negative
counters are kept as they are. -/
theorem C3_counter_overflow (data : List (List Int)) :
    ((∃ l, serialize_counters data = .ok l) ↔
      ∀ row ∈ data, ∀ v ∈ row, -128 ≤ v ∧ v ≤ 127) ∧
    ((∀ row ∈ data, ∀ v ∈ row, -128 ≤ v ∧ v ≤ 127) →
      serialize_counters data =
        .ok (data.flatten.map (fun v => if v < 0 then (v + 256).toNat else v.toNat))) ∧
    ((¬ ∀ row ∈ data, ∀ v ∈ row, -128 ≤ v ∧ v ≤ 127) →
      serialize_counters data = .error CodecError.CounterOverflow) := by
  have hflat : (∀ row ∈ data, ∀ v ∈ row, -128 ≤ v ∧ v ≤ 127) ↔
      ∀ v ∈ data.flatten, -128 ≤ v ∧ v ≤ 127 := by
    constructor
    · intro h v hv
      obtain ⟨row, hrow, hvrow⟩ := List.mem_flatten.mp hv
      exact h row hrow v hvrow
    · intro h row hrow v hvrow
      exact h v (List.mem_flatten.mpr ⟨row, hrow, hvrow⟩)
  have hok : (∀ row ∈ data, ∀ v ∈ row, -128 ≤ v ∧ v ≤ 127) →
      serialize_counters data =
        .ok (data.flatten.map (fun v => if v < 0 then (v + 256).toNat else v.toNat)) := by
    intro h
    exact serialize_counters_go_ok data.flatten (hflat.mp h)
  have herr : (¬ ∀ row ∈ data, ∀ v ∈ row, -128 ≤ v ∧ v ≤ 127) →
      serialize_counters data = .error CodecError.CounterOverflow := by
    intro h
    rw [hflat] at h
    push_neg at h
    obtain ⟨v, hv, hvr⟩ := h
    exact serialize_counters_go_err data.flatten ⟨v, hv, by omega⟩
  refine ⟨⟨?_, fun h => ⟨_, hok h⟩⟩, hok, herr⟩
  intro ⟨l, hl⟩
  by_contra h
  rw [herr h] at hl
  exact Except.noConfusion hl

/-- Witness for C3 at the concrete in-range matrix `[[5, -3]]`. -/
theorem C3_counter_overflow_witness :
    serialize_counters [[5, -3]] =
      .ok ([[5, -3]].flatten.map
        (fun v => if v < 0 then (v + 256).toNat else v.toNat)) :=
  (C3_counter_overflow [[5, -3]]).2.1 (by decide)


/-! ## Chunk codec (C6) -/

theorem chunks_full_flatten (l : List Nat) (cs : Nat) :
    ∀ q, q * cs ≤ l.length →
    ((List.range q).map (fun i => (l.drop (i * cs)).take cs)).flatten = l.take (q * cs) := by
  intro q
  induction q with
  | zero => simp
  | succ q ih =>
    intro h
    have hstep : (q + 1) * cs = q * cs + cs := Nat.succ_mul q cs
    have hq : q * cs ≤ l.length := by omega
    rw [List.range_succ, List.map_append, List.flatten_append, ih hq]
    simp only [List.map_cons, List.map_nil, List.flatten_cons, List.flatten_nil,
      List.append_nil]
    rw [hstep, List.take_add]

theorem chunk_split_pos (l : List Nat) (cs : Nat) (hr : l.length % cs > 0) :
    chunk_binary_data l cs =
      (List.range (l.length / cs)).map (fun i => (l.drop (i * cs)).take cs) ++
      [l.drop (l.length - l.length % cs) ++ List.replicate (cs - l.length % cs) 0] := by
  unfold chunk_binary_data
  simp [hr]

theorem chunk_split_zero (l : List Nat) (cs : Nat) (hr : ¬ l.length % cs > 0) :
    chunk_binary_data l cs =
      (List.range (l.length / cs)).map (fun i => (l.drop (i * cs)).take cs) := by
  unfold chunk_binary_data
  simp [hr]

theorem chunk_flatten_take (l : List Nat) (cs : Nat) (_hcs : 0 < cs) :
    (chunk_binary_data l cs).flatten.take l.length = l := by
  have hqle : l.length / cs * cs ≤ l.length := Nat.div_mul_le_self _ _
  have hfull := chunks_full_flatten l cs (l.length / cs) hqle
  have hmod : l.length / cs * cs + l.length % cs = l.length := Nat.div_add_mod' _ _
  by_cases hr : l.length % cs > 0
  · rw [chunk_split_pos l cs hr, List.flatten_append, hfull]
    simp only [List.flatten_cons, List.flatten_nil, List.append_nil]
    have hsub : l.length - l.length % cs = l.length / cs * cs := by omega
    rw [hsub, ← List.append_assoc, List.take_append_drop]
    exact List.take_left l (List.replicate (cs - l.length % cs) 0)
  · rw [chunk_split_zero l cs hr, hfull]
    have heq : l.length / cs * cs = l.length := by omega
    rw [heq, List.take_take, Nat.min_self, List.take_length]

theorem chunk_length_eq (l : List Nat) (cs : Nat) (hcs : 0 < cs) :
    ∀ c ∈ chunk_binary_data l cs, c.length = cs := by
  intro c hc
  have hqle : l.length / cs * cs ≤ l.length := Nat.div_mul_le_self _ _
  have hfull : ∀ c' ∈ (List.range (l.length / cs)).map
      (fun i => (l.drop (i * cs)).take cs), c'.length = cs := by
    intro c' hc'
    obtain ⟨i, hi, rfl⟩ := List.mem_map.mp hc'
    have hi' : i + 1 ≤ l.length / cs := List.mem_range.mp hi
    have h1 : (i + 1) * cs ≤ l.length / cs * cs := mul_le_mul_right' hi' cs
    have h2 : i * cs + cs ≤ l.length / cs * cs := by
      rw [← Nat.succ_mul]; exact h1
    simp only [List.length_take, List.length_drop]
    omega
  by_cases hr : l.length % cs > 0
  · rw [chunk_split_pos l cs hr] at hc
    rcases List.mem_append.mp hc with hc | hc
    · exact hfull c hc
    · have hrle : l.length % cs ≤ l.length := Nat.mod_le _ _
      have hrcs : l.length % cs < cs := Nat.mod_lt _ hcs
      simp only [List.mem_singleton] at hc
      subst hc
      simp only [List.length_append, List.length_drop, List.length_replicate]
      omega
  · rw [chunk_split_zero l cs hr] at hc
    exact hfull c hc

/-- C6: splitting a payload into `chunkSize` chunks zero-pads only the
final short chunk, every chunk has length `chunkSize`, and concatenating
the chunks then truncating to the original bit length recovers the
payload; a 20-bit payload with `chunkSize = 8` gives 3 chunks whose last
4 bits are padding. -/
theorem C6_chunk_roundtrip (l : List Nat) (cs : Nat) (hcs : 0 < cs) :
    (chunk_binary_data l cs).flatten.take l.length = l ∧
    (∀ c ∈ chunk_binary_data l cs, c.length = cs) ∧
    (l.length = 20 →
      (chunk_binary_data l 8).length = 3 ∧
      ((chunk_binary_data l 8).getD 2 []).drop 4 = List.replicate 4 0 ∧
      (chunk_binary_data l 8).flatten.take 20 = l) := by
  refine ⟨chunk_flatten_take l cs hcs, chunk_length_eq l cs hcs, ?_⟩
  intro h20
  have hsplit := chunk_split_pos l 8 (by rw [h20]; decide)
  rw [h20] at hsplit
  have hrange : List.range (20 / 8) = [0, 1] := by decide
  have h208 : (20 : Nat) - 20 % 8 = 16 := by decide
  have h88 : (8 : Nat) - 20 % 8 = 4 := by decide
  rw [hrange, h208, h88] at hsplit
  simp only [List.map_cons, List.map_nil] at hsplit
  constructor
  · rw [hsplit]; rfl
  constructor
  · rw [hsplit]
    have hgd : ∀ c0 c1 c2 : List Nat, ([c0, c1] ++ [c2]).getD 2 [] = c2 := by
      intro c0 c1 c2; rfl
    rw [hgd]
    have hlen : (l.drop 16).length = 4 := by simp [h20]
    rw [← hlen, List.drop_left]
  · simpa [h20] using chunk_flatten_take l 8 (by decide)

/-- Witness for C6 at a concrete 20-bit payload with `chunkSize = 8`. -/
theorem C6_chunk_roundtrip_witness :
    (chunk_binary_data [1, 0, 1, 1, 0, 0, 1, 0, 1, 1, 1, 0, 0, 0, 1, 1, 0, 1, 0, 1] 8).length
      = 3 :=
  ((C6_chunk_roundtrip [1, 0, 1, 1, 0, 0, 1, 0, 1, 1, 1, 0, 0, 0, 1, 1, 0, 1, 0, 1] 8
    (by decide)).2.2 (by decide)).1

/-! ## Memory engine: Hamming distance and single-address recall (C2) -/

theorem hamming_distance_self (a : List Nat) : hamming_distance a a = 0 := by
  induction a with
  | nil => rfl
  | cons x t ih => simpa [hamming_distance] using ih

theorem hamming_distance_le_left (a b : List Nat) : hamming_distance a b ≤ a.length :=
  calc hamming_distance a b ≤ (a.zip b).length := List.length_filter_le _ _
  _ = min a.length b.length := List.length_zip a b
  _ ≤ a.length := Nat.min_le_left _ _

theorem voteUpdate_replicate (pattern : List Nat) :
    voteUpdate (List.replicate pattern.length 0) pattern =
      pattern.map (fun p => if p = 1 then (1 : Int) else -1) := by
  induction pattern with
  | nil => rfl
  | cons p pat ih =>
    simp only [List.length_cons, List.replicate_succ, voteUpdate, List.map_cons, ih]
    norm_num

theorem zipWith_replicate_zero_add (l : List Int) :
    List.zipWith (· + ·) (List.replicate l.length 0) l = l := by
  induction l with
  | nil => rfl
  | cons x t ih => simp [List.replicate_succ, ih]

theorem threshold_map_vote (pattern : List Nat) (hbits : ∀ b ∈ pattern, b ≤ 1) :
    (pattern.map (fun p => if p = 1 then (1 : Int) else -1)).map
      (fun x => if x > 0 then 1 else 0) = pattern := by
  induction pattern with
  | nil => rfl
  | cons p pat ih =>
    have hp : p ≤ 1 := hbits p (by simp)
    have htail := ih (fun b hb => hbits b (by simp [hb]))
    interval_cases p <;> simpa using htail

/-- C2: with a single address and `radius = n` (every key in range),
entering a binary pattern at any length-`n` key into the all-zero
counter matrix and looking the same key up returns exactly the pattern. -/
theorem C2_single_address_recall (n : Nat) (a key pattern : List Nat)
    (ha : a.length = n) (hkey : key.length = n) (hpat : pattern.length = n)
    (hbits : ∀ b ∈ pattern, b ≤ 1) :
    SDM.lookup (SDM.enter ⟨[a], [List.replicate n 0], n⟩ key pattern) key = pattern := by
  have hcond : hamming_distance a key ≤ n := ha ▸ hamming_distance_le_left a key
  have henter : SDM.enter ⟨[a], [List.replicate n 0], n⟩ key pattern =
      ⟨[a], [voteUpdate (List.replicate n 0) pattern], n⟩ := by
    simp [SDM.enter, hcond]
  rw [henter]
  have hrow : voteUpdate (List.replicate n 0) pattern =
      pattern.map (fun p => if p = 1 then (1 : Int) else -1) := by
    rw [← hpat]; exact voteUpdate_replicate pattern
  simp only [SDM.lookup, List.zip_cons_cons, List.zip_nil_right, List.foldl_cons,
    List.foldl_nil, hcond, if_pos]
  rw [hrow]
  have hlen : key.length = (pattern.map (fun p => if p = 1 then (1 : Int) else -1)).length := by
    simp [hkey, hpat]
  rw [hlen, zipWith_replicate_zero_add]
  exact threshold_map_vote pattern hbits

/-- Witness for C2 at `n = 3`, address `[0,1,1]`, key `[1,0,1]`, pattern
`[1,0,0]`. -/
theorem C2_single_address_recall_witness :
    SDM.lookup (SDM.enter ⟨[[0, 1, 1]], [List.replicate 3 0], 3⟩ [1, 0, 1] [1, 0, 0])
      [1, 0, 1] = [1, 0, 0] :=
  C2_single_address_recall 3 [0, 1, 1] [1, 0, 1] [1, 0, 0] (by decide) (by decide)
    (by decide) (by decide)

/-! ## Read thresholding (C4) -/

theorem getD_zipWith_add (a : List Int) :
    ∀ (b : List Int) (j : Nat), j < a.length → j < b.length →
    (List.zipWith (· + ·) a b).getD j 0 = a.getD j 0 + b.getD j 0 := by
  induction a with
  | nil => intro b j h _; simp at h
  | cons x t ih =>
    intro b j hj hjb
    cases b with
    | nil => simp at hjb
    | cons y u =>
      cases j with
      | zero => simp [List.getD]
      | succ j =>
        simp only [List.zipWith_cons_cons, List.getD_cons_succ]
        exact ih u j (by simpa using hj) (by simpa using hjb)

theorem lookup_fold_length (key : List Nat) (radius : Nat) :
    ∀ (l : List (List Nat × List Int)) (acc : List Int),
      (∀ kd ∈ l, acc.length ≤ kd.2.length) →
      (l.foldl (fun acc kd => if hamming_distance kd.1 key ≤ radius
                then List.zipWith (· + ·) acc kd.2 else acc) acc).length = acc.length := by
  intro l
  induction l with
  | nil => intro acc _; rfl
  | cons kd t ih =>
    intro acc hlen
    have hkd : acc.length ≤ kd.2.length := hlen kd (by simp)
    have ht : ∀ kd' ∈ t, acc.length ≤ kd'.2.length := fun kd' h => hlen kd' (by simp [h])
    simp only [List.foldl_cons]
    by_cases h : hamming_distance kd.1 key ≤ radius
    · have hzlen : (List.zipWith (· + ·) acc kd.2).length = acc.length := by
        simp [List.length_zipWith]; omega
      rw [if_pos h, ih _ (fun kd' h' => by rw [hzlen]; exact ht kd' h'), hzlen]
    · rw [if_neg h]
      exact ih acc ht

theorem lookup_fold_getD (key : List Nat) (radius : Nat) (j : Nat) :
    ∀ (l : List (List Nat × List Int)) (acc : List Int),
      j < acc.length → (∀ kd ∈ l, acc.length ≤ kd.2.length) →
      (l.foldl (fun acc kd => if hamming_distance kd.1 key ≤ radius
                then List.zipWith (· + ·) acc kd.2 else acc) acc).getD j 0 =
        acc.getD j 0 +
          ((l.filter (fun kd => decide (hamming_distance kd.1 key ≤ radius))).map
            (fun kd => kd.2.getD j 0)).sum := by
  intro l
  induction l with
  | nil => intro acc _ _; simp
  | cons kd t ih =>
    intro acc hj hlen
    have hkd : acc.length ≤ kd.2.length := hlen kd (by simp)
    have ht : ∀ kd' ∈ t, acc.length ≤ kd'.2.length := fun kd' h => hlen kd' (by simp [h])
    simp only [List.foldl_cons]
    by_cases h : hamming_distance kd.1 key ≤ radius
    · have hzlen : (List.zipWith (· + ·) acc kd.2).length = acc.length := by
        simp [List.length_zipWith]; omega
      rw [if_pos h, ih _ (by omega) (fun kd' h' => by rw [hzlen]; exact ht kd' h'),
        getD_zipWith_add acc kd.2 j hj (by omega)]
      rw [List.filter_cons_of_pos (by simpa using h)]
      simp only [List.map_cons, List.sum_cons]
      ring
    · rw [if_neg h, ih acc hj ht, List.filter_cons_of_neg (by simpa using h)]

/-- C4 (amended part): in `compression_test.py`, read outputs bit `j` as
1 exactly when the accumulated sum of in-radius counters at `j` is
strictly positive, and 0 otherwise — in particular a zero-sum tie maps
to 0. -/
theorem C4_threshold_rule (s : SDM) (key : List Nat) (j : Nat)
    (hrows : ∀ kd ∈ s.keys.zip s.data, key.length ≤ kd.2.length)
    (hj : j < key.length) :
    (s.lookup key).getD j 0 = if 0 < inRadiusSum s key j then 1 else 0 := by
  unfold SDM.lookup inRadiusSum
  have hacc : (List.replicate key.length (0 : Int)).length = key.length :=
    List.length_replicate ..
  have hj' : j < (List.replicate key.length (0 : Int)).length := by rw [hacc]; exact hj
  have hrows' : ∀ kd ∈ s.keys.zip s.data,
      (List.replicate key.length (0 : Int)).length ≤ kd.2.length := by
    intro kd hkd; rw [hacc]; exact hrows kd hkd
  have hfold := lookup_fold_getD key s.radius j (s.keys.zip s.data)
    (List.replicate key.length 0) hj' hrows'
  have hflen := lookup_fold_length key s.radius (s.keys.zip s.data)
    (List.replicate key.length 0) hrows'
  have hjf : j < ((s.keys.zip s.data).foldl
      (fun acc kd => if hamming_distance kd.1 key ≤ s.radius
        then List.zipWith (· + ·) acc kd.2 else acc)
      (List.replicate key.length 0)).length := by rw [hflen, hacc]; exact hj
  rw [List.getD_eq_getElem _ _ (by simpa using hjf), List.getElem_map]
  rw [← List.getD_eq_getElem _ (0 : Int) hjf, hfold]
  have hzero : (List.replicate key.length (0 : Int)).getD j 0 = 0 := by
    simp [List.getD, List.getElem?_replicate, hj]
  rw [hzero, zero_add]

/-- Witness for C4 at a concrete one-address memory with counter 3. -/
theorem C4_threshold_rule_witness :
    (SDM.lookup ⟨[[0]], [[3]], 0⟩ [0]).getD 0 0 =
      if 0 < inRadiusSum ⟨[[0]], [[3]], 0⟩ [0] 0 then 1 else 0 :=
  C4_threshold_rule ⟨[[0]], [[3]], 0⟩ [0] 0 (by decide) (by decide)

/-- C4 (counterexample to the claim as stated): the `sdmTest.py` read
maps a zero-sum accumulator to 1 (threshold `>= 0`), while the
`compression_test.py` read maps it to 0 — so `accumulator > 0` is not
the rule of *every* read of the memory engine. -/
theorem C4_zero_tie_counterexample :
    SDMT.lookup ⟨[[0]], [[0]], 1⟩ [0] = [1] ∧
    SDM.lookup ⟨[[0]], [[0]], 0⟩ [0] = [0] := by
  constructor
  · simp [SDMT.lookup, hamming_distance, sdmTest_radius]
  · decide

/-! ## Radius threshold (C5) -/

/-- C5 (counterexample to the claim as stated): at `n = 10` the radius
stored by `sdmTest.py` and `sparse_malicious_memory.py` is the
non-integer `4.51`, not the floored integer `4` that
`compression_test.py` stores. -/
theorem C5_radius_not_floored_counterexample :
    sdmTest_radius 10 = 451 / 100 ∧ (sdmTest_radius 10).den ≠ 1 ∧
    (radius_ct 10 : ℚ) ≠ sdmTest_radius 10 := by
  refine ⟨by norm_num [sdmTest_radius], ?_, by norm_num [sdmTest_radius, radius_ct]⟩
  norm_num [sdmTest_radius]

/-- C5 (amended): `compression_test.py` stores the integer
`floor(0.451·n)` while the other two variants store the unfloored
rational `0.451·n`; nevertheless an integer Hamming distance passes the
unfloored test exactly when it passes the floored one. -/
theorem C5_radius_floor_agreement (n hd : Nat) :
    (hd : ℚ) ≤ sdmTest_radius n ↔ hd ≤ radius_ct n := by
  unfold sdmTest_radius radius_ct
  rw [Nat.le_div_iff_mul_le (by norm_num : 0 < 1000)]
  rw [div_mul_eq_mul_div, le_div_iff₀ (by norm_num : (0 : ℚ) < 1000)]
  constructor
  · intro h; exact_mod_cast h
  · intro h; exact_mod_cast h

/-! ## Dimension handling of write/read (C8) -/

/-- C8 (counterexample to the claim as stated): reading a 2-bit memory
with a 1-bit key raises nothing — `hamming_distance` zips the vectors
(truncating to the shorter) and the read completes, returning a 1-bit
result. -/
theorem C8_no_dimension_check_counterexample :
    SDM.lookup ⟨[[0, 0]], [[5, 5]], 2⟩ [1] = [1] := by decide

/-- C8 (amended): neither `enter` nor `lookup` checks the key length;
both proceed on a mismatched key, `enter` leaving the number of counter
rows unchanged and `lookup` returning one bit per key position. -/
theorem C8_mismatched_key_proceeds (s : SDM) (key pattern : List Nat) :
    (s.keys.length = s.data.length →
      (s.enter key pattern).data.length = s.data.length) ∧
    ((∀ kd ∈ s.keys.zip s.data, key.length ≤ kd.2.length) →
      (s.lookup key).length = key.length) := by
  constructor
  · intro h
    simp [SDM.enter, List.length_zip, h]
  · intro h
    unfold SDM.lookup
    rw [List.length_map, lookup_fold_length key s.radius _ _
      (by intro kd hkd; rw [List.length_replicate]; exact h kd hkd),
      List.length_replicate]

/-- Witness for C8's amended statement at a mismatched 1-bit key on a
2-bit memory. -/
theorem C8_mismatched_key_proceeds_witness :
    (SDM.lookup ⟨[[0, 0]], [[5, 5]], 2⟩ [1]).length = 1 :=
  (C8_mismatched_key_proceeds ⟨[[0, 0]], [[5, 5]], 2⟩ [1] []).2 (by decide)

/-! ## Seeded key/address coincidence (C9) -/

/-- C9: because `SDM.__init__` and `generate_key_vectors` reseed the same
generator with the same default seed 42 and draw bits in the same
row-major order, the `i`-th chunk key equals the `i`-th SDM address
(Hamming distance 0), and the `i`-th key is the same whatever the total
number of keys requested — so same-index chunks of different files get
identical keys. -/
theorem C9_shared_seed_coincidence (rng : Nat → Nat → Nat) (p n count i : Nat)
    (hic : i < count) (hip : i < p) :
    (generate_key_vectors rng count n).getD i [] = (sdm_init_keys rng p n).getD i [] ∧
    hamming_distance ((generate_key_vectors rng count n).getD i [])
      ((sdm_init_keys rng p n).getD i []) = 0 ∧
    ∀ count₂, i < count₂ →
      (generate_key_vectors rng count n).getD i [] =
        (generate_key_vectors rng count₂ n).getD i [] := by
  have hval : ∀ c, i < c → (pyRandVectors rng 42 c n).getD i [] =
      (List.range n).map (fun j => rng 42 (i * n + j)) := by
    intro c hc
    unfold pyRandVectors
    rw [List.getD_eq_getElem _ _ (by simpa using hc), List.getElem_map]
    simp
  unfold generate_key_vectors sdm_init_keys
  refine ⟨by rw [hval count hic, hval p hip], ?_, ?_⟩
  · rw [hval count hic, hval p hip]
    exact hamming_distance_self _
  · intro c₂ h₂
    rw [hval count hic, hval c₂ h₂]

/-- Witness for C9 with a concrete stream, `p = 2`, `count = 3`, `i = 1`. -/
theorem C9_shared_seed_coincidence_witness :
    (generate_key_vectors (fun _ j => j % 2) 3 4).getD 1 [] =
      (sdm_init_keys (fun _ j => j % 2) 2 4).getD 1 [] :=
  (C9_shared_seed_coincidence (fun _ j => j % 2) 2 4 3 1 (by decide) (by decide)).1
